import Mathlib

/-!
Verification development for the local search subsystem of the `tt` CLI:
the dual-script tokenizer, term post-processing, snippet extraction, the
MiniSearch-backed index store wrapper, and the index cache manager
(`src/lib/local/tokenizer.ts`, `src/lib/local/search.ts`,
`src/lib/local/index-manager.ts`).

Strings are shallowly embedded as `List Char`.  JavaScript's
`toLowerCase` is modelled by `Char.toLower`; the two agree on the ASCII
and CJK material exercised by this development (CJK characters are fixed
points of both).  Timestamps (`mtimeMs`, ISO date strings) are modelled
as natural numbers: only their ordering and equality are ever used.
-/

namespace TT

/-- Characters of the main CJK range U+4E00 to U+9FA5, the first range of
the tokenizer's CJK_REGEX character class. -/
def isCJKmain (c : Char) : Bool :=
  decide (0x4e00 ≤ c.toNat) && decide (c.toNat ≤ 0x9fa5)

/-- Characters of the CJK extension A range U+3400 to U+4DBF, the second
range of the tokenizer's CJK_REGEX character class. -/
def isCJKextA (c : Char) : Bool :=
  decide (0x3400 ≤ c.toNat) && decide (c.toNat ≤ 0x4dbf)

/-- The full CJK character class of the tokenizer (CJK_REGEX). -/
def isCJK (c : Char) : Bool := isCJKmain c || isCJKextA c

/-- The JavaScript regular-expression whitespace class backslash-s. -/
def isJsWs (c : Char) : Bool :=
  let n := c.toNat
  (decide (9 ≤ n) && decide (n ≤ 13)) || decide (n = 32) ||
  decide (n = 0xa0) || decide (n = 0x1680) ||
  (decide (0x2000 ≤ n) && decide (n ≤ 0x200a)) ||
  decide (n = 0x2028) || decide (n = 0x2029) || decide (n = 0x202f) ||
  decide (n = 0x205f) || decide (n = 0x3000) || decide (n = 0xfeff)

/-- The punctuation part of WORD_BOUNDARY_REGEX, by code point:
hyphen, underscore, dot, slash, backslash, comma, semicolon, colon,
bang, question mark, single and double quote, parentheses, square
brackets, curly braces, pipe, angle brackets, at, hash, dollar, percent,
caret, ampersand, star, plus, equals, tilde, backquote. -/
def boundaryPunct : List Nat :=
  [0x2d, 0x5f, 0x2e, 0x2f, 0x5c, 0x2c, 0x3b, 0x3a, 0x21, 0x3f,
   0x27, 0x22, 0x28, 0x29, 0x5b, 0x5d, 0x7b, 0x7d, 0x7c, 0x3c, 0x3e,
   0x40, 0x23, 0x24, 0x25, 0x5e, 0x26, 0x2a, 0x2b, 0x3d, 0x7e, 0x60]

/-- The word-boundary character class of the tokenizer
(WORD_BOUNDARY_REGEX): JS whitespace plus the punctuation list. -/
def isBoundaryChar (c : Char) : Bool :=
  isJsWs c || boundaryPunct.contains c.toNat

/-- Model of JS `String.prototype.toLowerCase` (agrees on ASCII and CJK,
the material exercised here). -/
def lowerStr (s : List Char) : List Char := s.map Char.toLower

/-- Worker for `splitRuns`: `inSep` records whether the previous
character was part of a separator run, `cur` is the current field,
reversed. -/
def splitRunsGo (p : Char → Bool) : List Char → Bool → List Char → List (List Char)
  | [], _, cur => [cur.reverse]
  | c :: rest, inSep, cur =>
    if p c then
      if inSep then splitRunsGo p rest true cur
      else cur.reverse :: splitRunsGo p rest true []
    else splitRunsGo p rest false (c :: cur)

/-- Model of JS `String.prototype.split` on a one-or-more character-class
regex: each maximal run of characters satisfying `p` is one separator.
Leading and trailing separator runs produce empty fields, as in JS. -/
def splitRuns (p : Char → Bool) (s : List Char) : List (List Char) :=
  splitRunsGo p s false []

/-- The Latin/word token pass of `tokenize`: split the lowercased input
on WORD_BOUNDARY_REGEX and keep nonempty tokens that are not purely
main-range CJK (the filter regex only covers U+4E00 to U+9FA5). -/
def englishTokens (text : List Char) : List (List Char) :=
  (splitRuns isBoundaryChar (lowerStr text)).filter
    (fun t => decide (0 < t.length) && !(decide (t ≠ []) && t.all isCJKmain))

/-- Greedy chunking performed by the global regex `[u4e00-u9fa5]{2,4}`
inside one run of matching characters: four at a time, a final chunk of
length one is dropped. -/
def chunkRun : List Char → List (List Char)
  | a :: b :: c :: d :: e :: rest => [a, b, c, d] :: chunkRun (e :: rest)
  | [a, b, c, d] => [[a, b, c, d]]
  | [a, b, c] => [[a, b, c]]
  | [a, b] => [[a, b]]
  | _ => []

/-- Worker for `cjkGroups`: `run` is the current run of main-range CJK
characters, reversed. -/
def cjkGroupsGo : List Char → List Char → List (List Char)
  | [], run => chunkRun run.reverse
  | c :: rest, run =>
    if isCJKmain c then cjkGroupsGo rest (c :: run)
    else chunkRun run.reverse ++ cjkGroupsGo rest []

/-- All matches of the global regex `[u4e00-u9fa5]{2,4}` over the
original-case input (the `chineseGroups` pass of `tokenize`). -/
def cjkGroups (text : List Char) : List (List Char) := cjkGroupsGo text []

/-- The tokenizer of `src/lib/local/tokenizer.ts`: Latin tokens from the
lowercased input, every CJK character (both ranges) of the original
input as a single-character token, and the main-range 2-to-4 character
groups; finally zero-length tokens are filtered out. -/
def tokenize (text : List Char) : List (List Char) :=
  (englishTokens text ++
     (text.filter isCJK).map (fun c => [c]) ++
     cjkGroups text).filter (fun t => decide (0 < t.length))

/-- The fixed stop-word set of `processTerm`. -/
def stopWords : List (List Char) :=
  ["the", "a", "an", "and", "or", "but", "in", "on", "at", "to", "for",
   "of", "with", "by", "is", "are", "was", "were", "be", "been", "being",
   "have", "has", "had", "do", "does", "did", "will", "would", "could",
   "should", "may", "might", "must", "can", "this", "that", "these", "those",
   "it", "its", "as", "if", "then", "else", "when", "where", "why", "how",
   "的", "是", "在", "和", "了", "有", "我", "他", "她", "它", "们", "这", "那"
  ].map String.toList

/-- Term post-processing of `src/lib/local/tokenizer.ts`: drop empty
terms, single characters containing a lowercase Latin letter (the source
tests the regex `[a-z]` on a length-one term), and stop words; otherwise
return the lowercased term. -/
def processTerm (term : List Char) : Option (List Char) :=
  if term.length = 0 then none
  else if term.length = 1 &&
      term.any (fun c => decide ('a' ≤ c) && decide (c ≤ 'z')) then none
  else if term ∈ stopWords then none
  else some (lowerStr term)

example : tokenize "Hello world".toList = ["hello".toList, "world".toList] := by decide
example : tokenize "path/to/file.md".toList =
    ["path".toList, "to".toList, "file".toList, "md".toList] := by decide
example : "数据分析".toList ∈ tokenize "数据分析".toList := by decide
example : "入门指南".toList ∈ tokenize "JavaScript 入门指南".toList := by decide
example : tokenize "".toList = [] := by decide
example : processTerm "the".toList = none := by decide
example : processTerm "的".toList = none := by decide
example : processTerm "好".toList = some "好".toList := by decide
example : processTerm "a".toList = none := by decide
example : processTerm "A".toList = some "a".toList := by decide
example : processTerm "JavaScript".toList = some "javascript".toList := by decide
example : "㐀㐁".toList ∉ tokenize "x㐀㐁".toList := by decide
example : "㐀㐁".toList ∈ englishTokens "㐀㐁 y".toList := by decide

/-! ## Snippet extraction (`extractSnippet` in `src/lib/local/search.ts`) -/

/-- Model of JS `String.prototype.trim`: strip JS whitespace from both
ends. -/
def jsTrim (s : List Char) : List Char :=
  ((s.dropWhile isJsWs).reverse.dropWhile isJsWs).reverse

/-- Model of JS `String.prototype.slice(a, b)` for `a ≤ b` indices. -/
def jsSlice (s : List Char) (a b : Nat) : List Char := (s.drop a).take (b - a)

/-- The `replace(newline-regex, space)` step of `extractSnippet`. -/
def collapseNewlines (s : List Char) : List Char :=
  s.map (fun c => if c = '\n' then ' ' else c)

/-- Worker for `idxOf`. -/
def idxOfAux (pat : List Char) : List Char → Nat → Option Nat
  | [], i => if pat.isPrefixOf ([] : List Char) then some i else none
  | c :: rest, i =>
    if pat.isPrefixOf (c :: rest) then some i else idxOfAux pat rest (i + 1)

/-- Model of JS `String.prototype.indexOf`: position of the first
occurrence of `pat` in `hay`, `none` when absent.  As in JS, the empty
pattern occurs at position 0. -/
def idxOf (hay pat : List Char) : Option Nat := idxOfAux pat hay 0

/-- One iteration of the first-match scan of `extractSnippet`: keep the
current best index unless this term occurs earlier. -/
def bmiStep (hay : List Char) (best : Option Nat) (t : List Char) : Option Nat :=
  match idxOf hay t, best with
  | some i, none => some i
  | some i, some b => if i < b then some i else some b
  | none, b => b

/-- The first-match scan of `extractSnippet`: fold the query terms in
order, keeping the smallest found index. -/
def bestMatchIndex (hay : List Char) (terms : List (List Char)) : Option Nat :=
  terms.foldl (bmiStep hay) none

/-- The front-matter-stripping replace of the `extractSnippet` fallback:
regex `---` at the start, a lazy middle, a closing `---`, and one
optional newline. -/
def stripFrontmatterSnippet (content : List Char) : List Char :=
  if ("---".toList).isPrefixOf content then
    match idxOf (content.drop 3) "---".toList with
    | none => content
    | some j =>
      match content.drop (3 + j + 3) with
      | '\n' :: t => t
      | after => after
  else content

/-- Snippet extraction of `src/lib/local/search.ts` (`maxLength` fixed
at its default 150, the only value used): find the earliest occurrence
of any whitespace-separated lowercased query term in the lowercased
content; on a match, show 50 characters before through 100 after with
newlines collapsed and ellipses when cut; otherwise show the start of
the content with front matter stripped, always followed by an
ellipsis. -/
def extractSnippet (content query : List Char) : List Char :=
  let lowerContent := lowerStr content
  let queryTerms := splitRuns isJsWs (lowerStr query)
  match bestMatchIndex lowerContent queryTerms with
  | none =>
    let cleaned := stripFrontmatterSnippet content
    jsTrim (collapseNewlines (cleaned.take 150)) ++ "...".toList
  | some bestIndex =>
    let start := bestIndex - 50
    let stop := min content.length (bestIndex + 100)
    let snippet := jsTrim (collapseNewlines (jsSlice content start stop))
    (if 0 < start then "...".toList else []) ++ snippet ++
      (if stop < content.length then "...".toList else [])

example : extractSnippet "hello".toList "xyz".toList = "hello...".toList := by decide
example : extractSnippet "say hello world".toList "hello".toList =
    "say hello world".toList := by decide
example : extractSnippet "---\ntitle: x\n---\nbody".toList "zz".toList =
    "body...".toList := by decide

/-! ## Search options (`searchLocal` in `src/lib/local/search.ts`) -/

/-- The effective fuzzy setting of an index query: off, or a maximum
edit-distance factor relative to the term length.  The factor is an
exact rational given as numerator and denominator (the source literal
0.2 is `factor 1 5`). -/
inductive FuzzyVal where
  | off : FuzzyVal
  | factor (num den : Nat) : FuzzyVal
deriving DecidableEq

/-- The caller-supplied `fuzzy` option of `SearchOptions`: absent, a
boolean, or a number. -/
inductive FuzzyInput where
  | undef : FuzzyInput
  | boolean (b : Bool) : FuzzyInput
  | num (num den : Nat) : FuzzyInput
deriving DecidableEq

/-- Caller options of `searchLocal` (the fields that drive the query
translation; `exact` and `prefix` are spelled `exactOpt` and
`prefixOpt` because they are reserved words in Lean). -/
structure SearchOptions where
  fuzzy : FuzzyInput := .undef
  prefixOpt : Option Bool := none
  exactOpt : Bool := false
deriving DecidableEq

/-- The per-call MiniSearch options object that `searchLocal` builds:
a field left `none` models a key that is never assigned. -/
structure MSQueryOptions where
  fuzzy : Option FuzzyVal := none
  prefixMatch : Option Bool := none
deriving DecidableEq

/-- Fully resolved search options as seen by the index engine. -/
structure MSSearchOptions where
  fuzzy : FuzzyVal
  prefixMatch : Bool
deriving DecidableEq

/-- The option-translation block of `searchLocal`: `exact` assigns
fuzzy false and prefix false; otherwise fuzzy is assigned 0.2 for
`true`, the given number for a number, 0.2 when absent, and is left
unassigned for `false`, while prefix is assigned
`options.prefix !== false`. -/
def buildSearchOptions (opts : SearchOptions) : MSQueryOptions :=
  if opts.exactOpt then
    { fuzzy := some .off, prefixMatch := some false }
  else
    { fuzzy :=
        match opts.fuzzy with
        | .boolean true => some (.factor 1 5)
        | .num a b => some (.factor a b)
        | .undef => some (.factor 1 5)
        | .boolean false => none
      prefixMatch := some (opts.prefixOpt ≠ some false) }

/-- The instance-level default search options set in `createMiniSearch`
(`src/lib/local/index-manager.ts`): prefix on, fuzzy 0.2. -/
def instanceSearchOptions : MSSearchOptions :=
  { fuzzy := .factor 1 5, prefixMatch := true }

/-- Modelled from the spec: the Index Store (the MiniSearch library,
which is not part of src/) resolves a per-call options object against
the instance defaults; a key assigned in the per-call object overrides
the default, an unassigned key leaves the instance default in effect
(spec 4.3: fuzzy is the default unless overridden, prefix is on unless
disabled). -/
def effectiveSearchOptions (q : MSQueryOptions) : MSSearchOptions :=
  { fuzzy := q.fuzzy.getD instanceSearchOptions.fuzzy,
    prefixMatch := q.prefixMatch.getD instanceSearchOptions.prefixMatch }

example : effectiveSearchOptions (buildSearchOptions { exactOpt := true }) =
    { fuzzy := .off, prefixMatch := false } := by decide
example : effectiveSearchOptions (buildSearchOptions { fuzzy := .boolean false }) =
    { fuzzy := .factor 1 5, prefixMatch := true } := by decide

/-! ## The Index Store (`IndexedDocument`, MiniSearch wrapper) -/

/-- One searchable unit, one per markdown file
(`IndexedDocument` in `src/lib/local/index-manager.ts`). -/
structure IndexedDocument where
  id : List Char
  title : List Char
  content : List Char
  tags : List (List Char)
  folder : List Char
  modified : Nat
deriving DecidableEq

/-- Modelled from the spec: the Index Store (the MiniSearch library, not
part of src/) keyed by document id; the model keeps the documents in
insertion order. -/
structure MSIndex where
  docs : List (List Char × IndexedDocument)
deriving DecidableEq

/-- The empty Index Store (`createMiniSearch`). -/
def msEmpty : MSIndex := { docs := [] }

/-- Modelled from the spec: `add(document)` inserts a document under its
id; the cache manager guarantees the id is not already present. -/
def msAdd (idx : MSIndex) (doc : IndexedDocument) : MSIndex :=
  { docs := idx.docs ++ [(doc.id, doc)] }

/-- Modelled from the spec: `discard(id)` removes the document stored
under `id`. -/
def msDiscard (idx : MSIndex) (id : List Char) : MSIndex :=
  { docs := idx.docs.filter (fun e => e.1 ≠ id) }

/-- The searchable terms of one document: the four indexed fields
(`title`, `content`, `tags`, `folder` per `createMiniSearch`), each run
through the shared tokenizer and `processTerm`; the tags list is indexed
through its comma-joined string form. -/
def docTerms (d : IndexedDocument) : List (List Char) :=
  (tokenize d.title ++ tokenize d.content ++
     tokenize (List.intercalate [','] d.tags) ++ tokenize d.folder).filterMap
    processTerm

/-- The processed terms of a query string (the index engine applies the
same tokenizer and `processTerm` at query time). -/
def queryTerms (q : List Char) : List (List Char) :=
  (tokenize q).filterMap processTerm

/-- Modelled from the spec: one query term matches one indexed term by
exact equality, by prefix when prefix matching is on, or within the
bounded edit distance when fuzzy matching is on (spec 4.3 query
modes). -/
def termMatches (o : MSSearchOptions) (qt it : List Char) : Bool :=
  qt = it ||
  (o.prefixMatch && qt.isPrefixOf it) ||
  (match o.fuzzy with
   | .off => false
   | .factor a b =>
     decide (0 < a) && decide (0 < b) &&
       decide (b * levenshtein Levenshtein.defaultCost qt it ≤ a * qt.length))

/-- Modelled from the spec: `search(query, options)` returns the ids of
the documents one of whose indexed terms matches one of the processed
query terms (ranking and per-field boosts are not modelled; only
membership of the result list is used in this development). -/
def msSearch (idx : MSIndex) (q : List Char) (o : MSSearchOptions) : List (List Char) :=
  (idx.docs.filter
      (fun e => (queryTerms q).any
        (fun qt => (docTerms e.2).any (fun it => termMatches o qt it)))).map
    (fun e => e.1)

/-- The document extracted from the spec's example vault: the single
file `javascript.md` with body "Learn JavaScript programming." and no
front matter, so the title falls back to the file's base name and the
folder is the vault root. -/
def jsDoc : IndexedDocument :=
  { id := "javascript.md".toList
    title := "javascript".toList
    content := "Learn JavaScript programming.".toList
    tags := []
    folder := []
    modified := 1 }

example : msSearch (msAdd msEmpty jsDoc) "javascrpt".toList
    (effectiveSearchOptions (buildSearchOptions { exactOpt := true })) = [] := by decide

example : msSearch (msAdd msEmpty jsDoc) "javascrpt".toList
    (effectiveSearchOptions (buildSearchOptions {})) = ["javascript.md".toList] := by decide

/-! ## The Index Cache Manager (`src/lib/local/index-manager.ts`)

The filesystem is modelled as the current vault listing: a list of
`FileInfo` records carrying the vault-relative path (the result of
`relative(vaultPath, file)` with separators normalised) and the file's
modification time.  Document extraction (`buildDocument`, which reads
the file, parses front matter and truncates the body) is a parameter
`extract` of the state machine: every theorem below holds for an
arbitrary extraction function, exactly as `updateIndex` and
`buildFullIndex` treat `buildDocument` as a black box that may also fail
(return `none`) for an unreadable file. -/

/-- One entry of the current vault listing. -/
structure FileInfo where
  path : List Char
  mtime : Nat
deriving DecidableEq

/-- Association-list lookup, modelling JS `Map.get` / object indexing
(`undefined` becomes `none`). -/
def alookup {β : Type} (k : List Char) : List (List Char × β) → Option β
  | [] => none
  | (k', v) :: t => if k' = k then some v else alookup k t

/-- Association-list upsert, modelling JS `Map.set` / object assignment:
an existing key keeps its position and gets the new value, a new key is
appended. -/
def aupsert {β : Type} (k : List Char) (v : β) : List (List Char × β) → List (List Char × β)
  | [] => [(k, v)]
  | (k', v') :: t => if k' = k then (k, v) :: t else (k', v') :: aupsert k v t

/-- Association-list delete, modelling JS `Map.delete` / `delete obj[k]`. -/
def adelete {β : Type} (k : List Char) (l : List (List Char × β)) : List (List Char × β) :=
  l.filter (fun e => e.1 ≠ k)

/-- The index format version (`INDEX_VERSION`). -/
def INDEX_VERSION : Nat := 1

/-- Persisted cache metadata (`IndexCache`). -/
structure IndexCache where
  version : Nat
  vaultPath : List Char
  lastBuilt : Nat
  fileCount : Nat
  fileMtimes : List (List Char × Nat)
deriving DecidableEq

/-- In-memory per-vault state (`IndexState`). -/
structure IndexState where
  index : MSIndex
  cache : IndexCache
  documents : List (List Char × IndexedDocument)
deriving DecidableEq

/-- The removal performed for one deleted id in `updateIndex`
(lines 248 to 254): discard from the index, delete from the documents
map and from the id-to-mtime map. -/
def removeId (st : IndexState) (id : List Char) : IndexState :=
  { st with
      index := msDiscard st.index id
      documents := adelete id st.documents
      cache := { st.cache with fileMtimes := adelete id st.cache.fileMtimes } }

/-- The body of the add/modify loop of `updateIndex` (lines 258 to 283)
for one current file, threading the `added` and `updated` counters.
The branch condition is JS `!oldMtime`, which is true both when no
mtime is recorded and when the recorded mtime is the falsy number 0. -/
def updateFileStep (extract : FileInfo → Option IndexedDocument)
    (acc : IndexState × Nat × Nat) (f : FileInfo) : IndexState × Nat × Nat :=
  let st := acc.1
  let added := acc.2.1
  let updated := acc.2.2
  match alookup f.path st.cache.fileMtimes with
  | none =>
    match extract f with
    | some doc =>
      ({ st with
          index := msAdd st.index doc
          documents := aupsert doc.id doc st.documents
          cache := { st.cache with
                       fileMtimes := aupsert doc.id doc.modified st.cache.fileMtimes } },
        added + 1, updated)
    | none => (st, added, updated)
  | some m =>
    if m = 0 then
      match extract f with
      | some doc =>
        ({ st with
            index := msAdd st.index doc
            documents := aupsert doc.id doc st.documents
            cache := { st.cache with
                         fileMtimes := aupsert doc.id doc.modified st.cache.fileMtimes } },
          added + 1, updated)
      | none => (st, added, updated)
    else if m < f.mtime then
      match extract f with
      | some doc =>
        ({ st with
            index := msAdd (msDiscard st.index f.path) doc
            documents := aupsert doc.id doc st.documents
            cache := { st.cache with
                         fileMtimes := aupsert doc.id doc.modified st.cache.fileMtimes } },
          added, updated + 1)
      | none => (st, added, updated)
    else (st, added, updated)

/-- The deletion loop of `updateIndex` (lines 247 to 255): every
previously recorded id (a snapshot of the keys of the id-to-mtime map)
that is missing from the current listing is removed, counting the
removals. -/
def removalFold (files : List FileInfo) (st : IndexState) : IndexState × Nat :=
  (st.cache.fileMtimes.map (fun e => e.1)).foldl
    (fun (acc : IndexState × Nat) id =>
      if id ∈ files.map (fun f => f.path) then acc else (removeId acc.1 id, acc.2 + 1))
    (st, 0)

/-- Incremental update (`updateIndex`, lines 232 to 291), also returning
the `added`, `updated` and `removed` counters: run the deletion loop,
then walk the current files through `updateFileStep`; when anything
changed, bump the last-built timestamp and store the documents-map size
as the file count. -/
def updateIndexAux (extract : FileInfo → Option IndexedDocument) (now : Nat)
    (files : List FileInfo) (st : IndexState) : IndexState × Nat × Nat × Nat :=
  let rem := removalFold files st
  let upd := files.foldl (updateFileStep extract) (rem.1, 0, 0)
  if 0 < upd.2.1 ∨ 0 < upd.2.2 ∨ 0 < rem.2 then
    ({ upd.1 with
        cache := { upd.1.cache with lastBuilt := now, fileCount := upd.1.documents.length } },
      upd.2.1, upd.2.2, rem.2)
  else (upd.1, upd.2.1, upd.2.2, rem.2)

/-- Incremental update, state only (`updateIndex`). -/
def updateIndex (extract : FileInfo → Option IndexedDocument) (now : Nat)
    (files : List FileInfo) (st : IndexState) : IndexState :=
  (updateIndexAux extract now files st).1

/-- The JSON payload written by `saveIndexCache`: the cache metadata
spread together with the serialised index (`indexData`); serialisation
of the index (`toJSON` / `MiniSearch.loadJS`) is modelled as the
identity. -/
structure DiskData where
  version : Nat
  vaultPath : List Char
  lastBuilt : Nat
  fileCount : Nat
  fileMtimes : List (List Char × Nat)
  indexData : MSIndex
deriving DecidableEq

/-- The on-disk cache file for one vault: either JSON that fails to
parse, or a parsed payload. -/
inductive DiskCacheFile where
  | unparseable : DiskCacheFile
  | parsed (d : DiskData) : DiskCacheFile
deriving DecidableEq

/-- The world visible to the cache manager for one vault name: the
process-wide in-memory cache (`indexCache`, a map from vault name to
state) and the vault's on-disk cache file (`none`: no file exists). -/
structure World where
  memory : List (List Char × IndexState)
  disk : Option DiskCacheFile
deriving DecidableEq

/-- The snapshot `saveIndexCache` serialises for a state. -/
def snapshotOf (st : IndexState) : DiskData :=
  { version := st.cache.version
    vaultPath := st.cache.vaultPath
    lastBuilt := st.cache.lastBuilt
    fileCount := st.cache.fileCount
    fileMtimes := st.cache.fileMtimes
    indexData := st.index }

/-- `saveIndexCache` (lines 296 to 310): overwrite the vault's cache
file with the serialised snapshot. -/
def saveIndexCache (st : IndexState) (w : World) : World :=
  { w with disk := some (.parsed (snapshotOf st)) }

/-- `loadIndexCache` (lines 315 to 358): `none` when the file is
missing, unparseable, has a version other than `INDEX_VERSION`, or
records a vault path different from the configured vault's expanded
path (`ep`).  On success the documents map starts out empty; only the
index itself and the cache metadata are restored. -/
def loadIndexCache (ep : List Char) (w : World) : Option IndexState :=
  match w.disk with
  | none => none
  | some .unparseable => none
  | some (.parsed d) =>
    if d.version ≠ INDEX_VERSION then none
    else if d.vaultPath ≠ ep then none
    else
      some { index := d.indexData
             cache := { version := d.version, vaultPath := d.vaultPath,
                        lastBuilt := d.lastBuilt, fileCount := d.fileCount,
                        fileMtimes := d.fileMtimes }
             documents := [] }

/-- `buildFullIndex` (lines 190 to 227): extract every listed file into
a fresh index, record per-document modification times, store the state
in the in-memory cache, and return it. -/
def buildFullIndex (extract : FileInfo → Option IndexedDocument) (now : Nat)
    (ep : List Char) (files : List FileInfo) (vaultName : List Char)
    (w : World) : IndexState × World :=
  let built := files.foldl
    (fun (acc : MSIndex × List (List Char × IndexedDocument) × List (List Char × Nat)) f =>
      match extract f with
      | some doc =>
        (msAdd acc.1 doc, aupsert doc.id doc acc.2.1, aupsert doc.id doc.modified acc.2.2)
      | none => acc)
    (msEmpty, [], [])
  let st : IndexState :=
    { index := built.1
      cache := { version := INDEX_VERSION, vaultPath := ep, lastBuilt := now,
                 fileCount := built.2.1.length, fileMtimes := built.2.2 }
      documents := built.2.1 }
  (st, { w with memory := aupsert vaultName st w.memory })

/-- `getSearchIndex` (lines 363 to 394): unless a rebuild is forced, an
existing in-memory state is incrementally updated and returned without
touching the disk; otherwise an acceptable on-disk snapshot is loaded,
updated and persisted; otherwise a full rebuild runs and is persisted.
In-place mutation of the JS state object is modelled by re-storing the
updated state under the vault name. -/
def getSearchIndex (extract : FileInfo → Option IndexedDocument) (now : Nat)
    (ep : List Char) (files : List FileInfo) (vaultName : List Char)
    (forceRebuild : Bool) (w : World) : MSIndex × World :=
  match forceRebuild, alookup vaultName w.memory with
  | false, some st =>
    let updated := updateIndex extract now files st
    (updated.index, { w with memory := aupsert vaultName updated w.memory })
  | _, _ =>
    match forceRebuild, loadIndexCache ep w with
    | false, some loaded =>
      let updated := updateIndex extract now files loaded
      let w1 : World := { w with memory := aupsert vaultName updated w.memory }
      (updated.index, saveIndexCache updated w1)
    | _, _ =>
      let built := buildFullIndex extract now ep files vaultName w
      (built.1.index, saveIndexCache built.1 built.2)

/-- The record returned by `getIndexStats` (lines 399 to 412). -/
structure IndexStats where
  fileCount : Nat
  lastBuilt : Nat
  cached : Bool
deriving DecidableEq

/-- `getIndexStats`: report from the in-memory cache only; `none` when
the vault has no in-memory state. -/
def getIndexStats (memory : List (List Char × IndexState)) (vaultName : List Char) :
    Option IndexStats :=
  match alookup vaultName memory with
  | none => none
  | some st =>
    some { fileCount := st.cache.fileCount, lastBuilt := st.cache.lastBuilt, cached := true }

/-- A concrete extraction function used by witnesses and
counterexamples: every file is readable, the document's id is the
file's path and its recorded modification time is the file's mtime
(as `buildDocument` guarantees). -/
def extractC (f : FileInfo) : Option IndexedDocument :=
  some { id := f.path, title := f.path, content := [], tags := [],
         folder := [], modified := f.mtime }

/-! ## Claim C4: `processTerm` -/

/-- C4 counterexample: the claim states that `processTerm` returns null
for every single Latin letter, but the source only tests the regex
`[a-z]`, so the single uppercase Latin letter `A` is not dropped: it is
lowercased and returned. -/
theorem c4_counterexample :
    processTerm "A".toList = some "a".toList ∧ processTerm "A".toList ≠ none := by
  decide

/-- C4 (amended): `processTerm` returns `none` when the term is empty,
is a single lowercase Latin letter (uppercase single letters are kept,
lowercased), or is a member of the fixed stop-word set; otherwise it
returns the lowercased term.  In particular `processTerm "the"` and
`processTerm "的"` are `none`, the single CJK character `好` is kept
unchanged while `a` is dropped. -/
theorem c4_amended :
    (∀ t : List Char, t = [] → processTerm t = none)
    ∧ (∀ c : Char, 'a' ≤ c → c ≤ 'z' → processTerm [c] = none)
    ∧ (∀ t : List Char, t ∈ stopWords → processTerm t = none)
    ∧ processTerm "the".toList = none
    ∧ processTerm "的".toList = none
    ∧ processTerm "好".toList = some "好".toList
    ∧ processTerm "a".toList = none
    ∧ (∀ t : List Char, t ≠ [] →
        ¬(t.length = 1 ∧ ∃ c ∈ t, 'a' ≤ c ∧ c ≤ 'z') →
        t ∉ stopWords → processTerm t = some (lowerStr t)) := by
  refine ⟨?_, ?_, ?_, by decide, by decide, by decide, by decide, ?_⟩
  · intro t ht
    subst ht
    rfl
  · intro c h1 h2
    have hany : ([c].any (fun x => decide ('a' ≤ x) && decide (x ≤ 'z'))) = true := by
      simp [h1, h2]
    simp [processTerm, hany]
  · intro t ht
    unfold processTerm
    split
    · rfl
    · split
      · rfl
      · simp [ht]
  · intro t hne hnot hstop
    have hlen : ¬ t.length = 0 := by
      simpa using hne
    have hany : (decide (t.length = 1) &&
        t.any (fun c => decide ('a' ≤ c) && decide (c ≤ 'z'))) ≠ true := by
      intro h
      rw [Bool.and_eq_true] at h
      refine hnot ⟨by simpa using h.1, ?_⟩
      rcases List.any_eq_true.mp h.2 with ⟨c, hc, hcc⟩
      rw [Bool.and_eq_true] at hcc
      exact ⟨c, hc, by simpa using hcc.1, by simpa using hcc.2⟩
    unfold processTerm
    rw [if_neg hlen, if_neg, if_neg hstop]
    simpa using hany

/-- C4 witness: the amended theorem applied at concrete inputs — the
uppercase letter bound instantiated at `b`, the stop-word clause at
`"and"`, and the keep clause at `"note"`. -/
theorem c4_witness :
    processTerm ['b'] = none
    ∧ processTerm "and".toList = none
    ∧ processTerm "note".toList = some (lowerStr "note".toList) :=
  ⟨c4_amended.2.1 'b' (by decide) (by decide),
   c4_amended.2.2.1 "and".toList (by decide),
   c4_amended.2.2.2.2.2.2.2 "note".toList (by decide) (by decide) (by decide)⟩

/-! ## Claim C7: query option translation in `searchLocal` -/

/-- C7 counterexample: the claim states that fuzzy matching is
overridable by the caller via `false`, but when `options.fuzzy` is
`false` the translation block never assigns `searchOptions.fuzzy`, so
the MiniSearch instance default of 0.2 stays in effect and fuzzy
matching is not turned off. -/
theorem c7_counterexample :
    (buildSearchOptions { fuzzy := .boolean false }).fuzzy = none
    ∧ (effectiveSearchOptions (buildSearchOptions { fuzzy := .boolean false })).fuzzy =
        .factor 1 5
    ∧ (effectiveSearchOptions (buildSearchOptions { fuzzy := .boolean false })).fuzzy ≠
        .off := by
  decide

/-- C7 (amended): `exact` forces fuzzy off and prefix off; otherwise
prefix defaults to on and is overridable via `false`, and fuzzy
defaults to 0.2 and is overridable via a number — but passing
`fuzzy = false` leaves the engine default of 0.2 in effect instead of
disabling fuzzy matching.  For the example vault holding only
`javascript.md`, querying `javascrpt` in exact mode returns zero
hits. -/
theorem c7_amended :
    (∀ o : SearchOptions, o.exactOpt = true →
        effectiveSearchOptions (buildSearchOptions o) =
          { fuzzy := .off, prefixMatch := false })
    ∧ (∀ o : SearchOptions, o.exactOpt = false → o.prefixOpt = some false →
        (effectiveSearchOptions (buildSearchOptions o)).prefixMatch = false)
    ∧ (∀ o : SearchOptions, o.exactOpt = false → o.prefixOpt ≠ some false →
        (effectiveSearchOptions (buildSearchOptions o)).prefixMatch = true)
    ∧ (∀ (o : SearchOptions) (a b : Nat), o.exactOpt = false → o.fuzzy = .num a b →
        (effectiveSearchOptions (buildSearchOptions o)).fuzzy = .factor a b)
    ∧ (∀ o : SearchOptions, o.exactOpt = false →
        (o.fuzzy = .undef ∨ o.fuzzy = .boolean true ∨ o.fuzzy = .boolean false) →
        (effectiveSearchOptions (buildSearchOptions o)).fuzzy = .factor 1 5)
    ∧ msSearch (msAdd msEmpty jsDoc) "javascrpt".toList
        (effectiveSearchOptions (buildSearchOptions { exactOpt := true })) = [] := by
  refine ⟨?_, ?_, ?_, ?_, ?_, by decide⟩
  · intro o h
    simp [buildSearchOptions, effectiveSearchOptions, h]
  · intro o h hp
    simp [buildSearchOptions, effectiveSearchOptions, h, hp]
  · intro o h hp
    simp [buildSearchOptions, effectiveSearchOptions, h, hp]
  · intro o a b h hf
    simp [buildSearchOptions, effectiveSearchOptions, h, hf]
  · intro o h hf
    rcases hf with hf | hf | hf <;>
      simp [buildSearchOptions, effectiveSearchOptions, h, hf, instanceSearchOptions]

/-- C7 witness: the amended theorem applied at concrete option
records — exact mode, a numeric fuzzy override, and a prefix-off
override. -/
theorem c7_witness :
    effectiveSearchOptions (buildSearchOptions { exactOpt := true }) =
      { fuzzy := .off, prefixMatch := false }
    ∧ (effectiveSearchOptions (buildSearchOptions { fuzzy := .num 3 10 })).fuzzy =
        .factor 3 10
    ∧ (effectiveSearchOptions
          (buildSearchOptions { prefixOpt := some false })).prefixMatch = false :=
  ⟨c7_amended.1 { exactOpt := true } rfl,
   c7_amended.2.2.2.1 { fuzzy := .num 3 10 } 3 10 rfl rfl,
   c7_amended.2.1 { prefixOpt := some false } rfl rfl⟩

/-! ## Claim C10: `getIndexStats` -/

/-- C10: `getIndexStats` answers `none` exactly when the vault has no
in-memory state — it never consults the on-disk snapshot, which is why
the statement quantifies over an arbitrary `disk` component — and any
record it returns has `cached = true`. -/
theorem c10_getIndexStats (w : World) (vaultName : List Char) :
    (alookup vaultName w.memory = none → getIndexStats w.memory vaultName = none)
    ∧ (∀ r, getIndexStats w.memory vaultName = some r → r.cached = true) := by
  constructor
  · intro h
    simp [getIndexStats, h]
  · intro r hr
    unfold getIndexStats at hr
    rcases hmem : alookup vaultName w.memory with _ | st <;> rw [hmem] at hr
    · exact absurd hr (by simp)
    · cases hr.symm
      rfl

/-- A valid parsed snapshot used by the C10 witness: version and path
both acceptable. -/
def demoDisk : DiskCacheFile :=
  .parsed { version := INDEX_VERSION, vaultPath := "/v".toList, lastBuilt := 0,
            fileCount := 0, fileMtimes := [], indexData := msEmpty }

/-- C10 witness: with an empty in-memory cache next to a valid on-disk
snapshot, `getIndexStats` still returns `none`. -/
theorem c10_witness :
    alookup "v".toList (World.mk [] (some demoDisk)).memory = none
    ∧ getIndexStats (World.mk [] (some demoDisk)).memory "v".toList = none :=
  ⟨by decide,
   (c10_getIndexStats (World.mk [] (some demoDisk)) "v".toList).1 (by decide)⟩

/-! ## Claim C5: rejected snapshots fall through to a full rebuild -/

/-- An unacceptable snapshot loads as `none`. -/
theorem loadIndexCache_eq_none_of_bad (ep : List Char) (w : World)
    (hbad : w.disk = some .unparseable
      ∨ ∃ d, w.disk = some (.parsed d) ∧ (d.version ≠ INDEX_VERSION ∨ d.vaultPath ≠ ep)) :
    loadIndexCache ep w = none := by
  rcases hbad with h | ⟨d, hd, hbad⟩
  · simp [loadIndexCache, h]
  · rcases hbad with hv | hp
    · simp [loadIndexCache, hd, hv]
    · simp [loadIndexCache, hd, hp]

/-- C5: when no in-memory state exists and the on-disk snapshot is
unparseable, version-mismatched, or recorded against a different
expanded vault path, `getSearchIndex` behaves exactly as a full
rebuild: it returns the freshly built index and persists its snapshot —
a normal result, not an error (the model is total; the source reaches
`buildFullIndex` on this path with no throw). -/
theorem c5_badSnapshot_rebuilds (extract : FileInfo → Option IndexedDocument)
    (now : Nat) (ep : List Char) (files : List FileInfo) (vaultName : List Char)
    (w : World)
    (hmem : alookup vaultName w.memory = none)
    (hbad : w.disk = some .unparseable
      ∨ ∃ d, w.disk = some (.parsed d) ∧ (d.version ≠ INDEX_VERSION ∨ d.vaultPath ≠ ep)) :
    getSearchIndex extract now ep files vaultName false w =
      ((buildFullIndex extract now ep files vaultName w).1.index,
        saveIndexCache (buildFullIndex extract now ep files vaultName w).1
          (buildFullIndex extract now ep files vaultName w).2) := by
  have hload := loadIndexCache_eq_none_of_bad ep w hbad
  unfold getSearchIndex
  rw [hmem, hload]

/-- C5 witness: a concrete world with an empty in-memory cache and an
unparseable cache file; the rebuild equality holds at one file. -/
theorem c5_witness :
    alookup "v".toList (World.mk [] (some .unparseable)).memory = none
    ∧ ((World.mk [] (some .unparseable)).disk = some .unparseable
        ∨ ∃ d, (World.mk [] (some .unparseable)).disk = some (.parsed d)
            ∧ (d.version ≠ INDEX_VERSION ∨ d.vaultPath ≠ "/v".toList))
    ∧ getSearchIndex extractC 9 "/v".toList [FileInfo.mk "a.md".toList 3] "v".toList
        false (World.mk [] (some .unparseable)) =
      ((buildFullIndex extractC 9 "/v".toList [FileInfo.mk "a.md".toList 3] "v".toList
          (World.mk [] (some .unparseable))).1.index,
        saveIndexCache
          (buildFullIndex extractC 9 "/v".toList [FileInfo.mk "a.md".toList 3] "v".toList
            (World.mk [] (some .unparseable))).1
          (buildFullIndex extractC 9 "/v".toList [FileInfo.mk "a.md".toList 3] "v".toList
            (World.mk [] (some .unparseable))).2) :=
  ⟨by decide, Or.inl rfl,
   c5_badSnapshot_rebuilds extractC 9 "/v".toList [FileInfo.mk "a.md".toList 3]
     "v".toList (World.mk [] (some .unparseable)) (by decide) (Or.inl rfl)⟩

/-! ## Claim C1: snapshot persistence after builds and updates -/

/-- The starting in-memory state of the C1 counterexample: an empty
index with nothing recorded. -/
def st0 : IndexState :=
  { index := msEmpty
    cache := { version := INDEX_VERSION, vaultPath := "/v".toList, lastBuilt := 0,
               fileCount := 0, fileMtimes := [] }
    documents := [] }

/-- C1 counterexample: with an in-memory state present and no forced
rebuild, `getSearchIndex` runs the incremental update (here: one new
file, so the snapshot's file count changes to 1) yet returns with the
on-disk cache file still absent — the updated snapshot is not written
on the in-memory path. -/
theorem c1_counterexample :
    (getSearchIndex extractC 9 "/v".toList [FileInfo.mk "a.md".toList 3] "v".toList
        false (World.mk [("v".toList, st0)] none)).2.disk = none
    ∧ (updateIndex extractC 9 [FileInfo.mk "a.md".toList 3] st0).cache.fileCount = 1 := by
  decide

/-- C1 (amended): the snapshot is persisted after a full rebuild
(including a forced one) and after the incremental update that follows
accepting an on-disk snapshot; but on the path where an in-memory state
already exists, the incremental update is returned without writing the
on-disk cache file, which keeps whatever content it had. -/
theorem c1_amended (extract : FileInfo → Option IndexedDocument) (now : Nat)
    (ep : List Char) (files : List FileInfo) (vaultName : List Char) (w : World) :
    (∀ st, alookup vaultName w.memory = some st →
        (getSearchIndex extract now ep files vaultName false w).2.disk = w.disk)
    ∧ (∀ st, alookup vaultName w.memory = none → loadIndexCache ep w = some st →
        (getSearchIndex extract now ep files vaultName false w).2.disk =
          some (.parsed (snapshotOf (updateIndex extract now files st))))
    ∧ (alookup vaultName w.memory = none → loadIndexCache ep w = none →
        (getSearchIndex extract now ep files vaultName false w).2.disk =
          some (.parsed (snapshotOf (buildFullIndex extract now ep files vaultName w).1)))
    ∧ (getSearchIndex extract now ep files vaultName true w).2.disk =
        some (.parsed (snapshotOf (buildFullIndex extract now ep files vaultName w).1)) := by
  refine ⟨?_, ?_, ?_, ?_⟩
  · intro st hst
    unfold getSearchIndex
    rw [hst]
  · intro st hmem hload
    unfold getSearchIndex
    rw [hmem, hload]
    rfl
  · intro hmem hload
    unfold getSearchIndex
    rw [hmem, hload]
    rfl
  · unfold getSearchIndex
    rfl

/-- C1 witness: the amended theorem applied at the counterexample's
world (in-memory path, disk untouched) and at a forced rebuild of the
same world (snapshot written). -/
theorem c1_witness :
    alookup "v".toList (World.mk [("v".toList, st0)] none).memory = some st0
    ∧ (getSearchIndex extractC 9 "/v".toList [FileInfo.mk "a.md".toList 3] "v".toList
        false (World.mk [("v".toList, st0)] none)).2.disk =
        (World.mk [("v".toList, st0)] none).disk
    ∧ (getSearchIndex extractC 9 "/v".toList [FileInfo.mk "a.md".toList 3] "v".toList
        true (World.mk [("v".toList, st0)] none)).2.disk =
        some (.parsed (snapshotOf
          (buildFullIndex extractC 9 "/v".toList [FileInfo.mk "a.md".toList 3]
            "v".toList (World.mk [("v".toList, st0)] none)).1)) :=
  ⟨by decide,
   (c1_amended extractC 9 "/v".toList [FileInfo.mk "a.md".toList 3] "v".toList
      (World.mk [("v".toList, st0)] none)).1 st0 (by decide),
   (c1_amended extractC 9 "/v".toList [FileInfo.mk "a.md".toList 3] "v".toList
      (World.mk [("v".toList, st0)] none)).2.2.2⟩

/-! ## Claim C2: per-file handling in an incremental update -/

/-- A one-document state whose recorded mtime for `a.md` is the falsy
number 0, used by the C2 counterexample. -/
def stZ : IndexState :=
  { index := msAdd msEmpty
      { id := "a.md".toList, title := "a.md".toList, content := [], tags := [],
        folder := [], modified := 0 }
    cache := { version := INDEX_VERSION, vaultPath := "/v".toList, lastBuilt := 0,
               fileCount := 1, fileMtimes := [("a.md".toList, 0)] }
    documents := [("a.md".toList,
      { id := "a.md".toList, title := "a.md".toList, content := [], tags := [],
        folder := [], modified := 0 })] }

/-- C2 counterexample: `a.md` has a recorded mtime (namely 0) and its
on-disk mtime (0) is not strictly greater, so the claim requires the
file to be left untouched; but the source's guard is the JS truthiness
test `!oldMtime`, which is true for the number 0, so the file is
re-extracted and re-added as if it were new: the `added` counter is
bumped and the index receives a second entry for the id (in the real
MiniSearch library this duplicate `add` raises an error). -/
theorem c2_counterexample :
    alookup "a.md".toList stZ.cache.fileMtimes = some 0
    ∧ ¬ (0 : Nat) < (FileInfo.mk "a.md".toList 0).mtime
    ∧ (updateFileStep extractC (stZ, 0, 0) (FileInfo.mk "a.md".toList 0)).2.1 = 1
    ∧ (updateFileStep extractC (stZ, 0, 0) (FileInfo.mk "a.md".toList 0)).1.index.docs.length
        = 2 := by
  decide

/-- C2 (amended): in the add/modify loop of `updateIndex`, a current
file whose recorded mtime is absent — or recorded as the falsy number
0 — is extracted and added as new; a file whose on-disk mtime is
strictly greater than its nonzero recorded mtime is discarded and
re-added from a fresh extraction; and a file whose on-disk mtime is not
strictly greater than its nonzero recorded mtime is left untouched:
no extraction result is consulted and nothing is mutated for it. -/
theorem c2_amended (extract : FileInfo → Option IndexedDocument)
    (st : IndexState) (a u : Nat) (f : FileInfo) :
    (alookup f.path st.cache.fileMtimes = none ∨
        alookup f.path st.cache.fileMtimes = some 0 →
      ∀ doc, extract f = some doc →
        updateFileStep extract (st, a, u) f =
          ({ st with
              index := msAdd st.index doc
              documents := aupsert doc.id doc st.documents
              cache := { st.cache with
                          fileMtimes := aupsert doc.id doc.modified st.cache.fileMtimes } },
            a + 1, u))
    ∧ (∀ m, alookup f.path st.cache.fileMtimes = some m → m ≠ 0 → m < f.mtime →
        ∀ doc, extract f = some doc →
          updateFileStep extract (st, a, u) f =
            ({ st with
                index := msAdd (msDiscard st.index f.path) doc
                documents := aupsert doc.id doc st.documents
                cache := { st.cache with
                            fileMtimes := aupsert doc.id doc.modified st.cache.fileMtimes } },
              a, u + 1))
    ∧ (∀ m, alookup f.path st.cache.fileMtimes = some m → m ≠ 0 → ¬ m < f.mtime →
        updateFileStep extract (st, a, u) f = (st, a, u)) := by
  refine ⟨?_, ?_, ?_⟩
  · intro hm doc hdoc
    rcases hm with hm | hm <;>
      simp [updateFileStep, hm, hdoc]
  · intro m hm hm0 hlt doc hdoc
    simp [updateFileStep, hm, hm0, hlt, hdoc]
  · intro m hm hm0 hge
    simp [updateFileStep, hm, hm0, hge]

/-- A one-document state whose recorded mtime for `b.md` is 5, used by
witnesses. -/
def stY : IndexState :=
  { index := msAdd msEmpty
      { id := "b.md".toList, title := "b.md".toList, content := [], tags := [],
        folder := [], modified := 5 }
    cache := { version := INDEX_VERSION, vaultPath := "/v".toList, lastBuilt := 0,
               fileCount := 1, fileMtimes := [("b.md".toList, 5)] }
    documents := [("b.md".toList,
      { id := "b.md".toList, title := "b.md".toList, content := [], tags := [],
        folder := [], modified := 5 })] }

/-- C2 witness: the amended theorem applied at concrete inputs — a new
file (no recorded mtime) against `st0`, and an unchanged file
(recorded 5, on disk 5) against `stY`. -/
theorem c2_witness :
    updateFileStep extractC (st0, 0, 0) (FileInfo.mk "a.md".toList 3) =
      ({ st0 with
          index := msAdd st0.index
            { id := "a.md".toList, title := "a.md".toList, content := [], tags := [],
              folder := [], modified := 3 }
          documents := aupsert "a.md".toList
            { id := "a.md".toList, title := "a.md".toList, content := [], tags := [],
              folder := [], modified := 3 } st0.documents
          cache := { st0.cache with
                      fileMtimes := aupsert "a.md".toList 3 st0.cache.fileMtimes } },
        1, 0)
    ∧ updateFileStep extractC (stY, 0, 0) (FileInfo.mk "b.md".toList 5) = (stY, 0, 0) :=
  ⟨(c2_amended extractC st0 0 0 (FileInfo.mk "a.md".toList 3)).1 (Or.inl (by decide))
      _ rfl,
   (c2_amended extractC stY 0 0 (FileInfo.mk "b.md".toList 5)).2.2 5 (by decide)
      (by decide) (by decide)⟩

/-! ## Association-list lemmas -/

theorem alookup_aupsert_ne {β : Type} (k k' : List Char) (v : β)
    (l : List (List Char × β)) (h : k' ≠ k) :
    alookup k (aupsert k' v l) = alookup k l := by
  induction l with
  | nil => simp [aupsert, alookup, h]
  | cons e t ih =>
    obtain ⟨k'', v'⟩ := e
    by_cases h2 : k'' = k' <;> simp [aupsert, alookup, h, h2, ih]

theorem length_aupsert_of_none {β : Type} (k : List Char) (v : β)
    (l : List (List Char × β)) (h : alookup k l = none) :
    (aupsert k v l).length = l.length + 1 := by
  induction l with
  | nil => simp [aupsert]
  | cons e t ih =>
    obtain ⟨k', v'⟩ := e
    by_cases h2 : k' = k
    · rw [alookup, if_pos h2] at h
      exact absurd h (by simp)
    · rw [alookup, if_neg h2] at h
      simp [aupsert, h2, ih h]

theorem alookup_adelete_self {β : Type} (k : List Char) (l : List (List Char × β)) :
    alookup k (adelete k l) = none := by
  induction l with
  | nil => rfl
  | cons e t ih =>
    obtain ⟨k', v⟩ := e
    by_cases h : k' = k
    · subst h
      have hstep : adelete k' ((k', v) :: t) = adelete k' t := by
        simp [adelete]
      rw [hstep]
      exact ih
    · have hstep : adelete k ((k', v) :: t) = (k', v) :: adelete k t := by
        simp [adelete, h]
      rw [hstep, alookup, if_neg h]
      exact ih

theorem alookup_adelete_of_none {β : Type} (k j : List Char) (l : List (List Char × β))
    (h : alookup k l = none) :
    alookup k (adelete j l) = none := by
  induction l with
  | nil => rfl
  | cons e t ih =>
    obtain ⟨k', v⟩ := e
    by_cases h2 : k' = k
    · rw [alookup, if_pos h2] at h
      exact absurd h (by simp)
    · rw [alookup, if_neg h2] at h
      by_cases h3 : k' = j
      · subst h3
        have hstep : adelete k' ((k', v) :: t) = adelete k' t := by
          simp [adelete]
        rw [hstep]
        exact ih h
      · have hstep : adelete j ((k', v) :: t) = (k', v) :: adelete j t := by
          simp [adelete, h3]
        rw [hstep, alookup, if_neg h2]
        exact ih h

/-- Every branch of `updateFileStep` either leaves the accumulator
unchanged or inserts one freshly extracted document: the documents map
and the mtime map are upserted under the document's id, the index
receives the document (in the modified branch after a discard of the
file's path), and exactly one of the two counters is bumped. -/
theorem updateFileStep_shape (extract : FileInfo → Option IndexedDocument)
    (acc : IndexState × Nat × Nat) (f : FileInfo) :
    updateFileStep extract acc f = acc
    ∨ ∃ doc, extract f = some doc
        ∧ (updateFileStep extract acc f).1.documents = aupsert doc.id doc acc.1.documents
        ∧ (updateFileStep extract acc f).1.cache.fileMtimes =
            aupsert doc.id doc.modified acc.1.cache.fileMtimes
        ∧ ((updateFileStep extract acc f).1.index = msAdd acc.1.index doc
            ∨ (updateFileStep extract acc f).1.index =
                msAdd (msDiscard acc.1.index f.path) doc)
        ∧ (updateFileStep extract acc f).2.1 + (updateFileStep extract acc f).2.2 =
            acc.2.1 + acc.2.2 + 1 := by
  obtain ⟨st, a, u⟩ := acc
  rcases hm : alookup f.path st.cache.fileMtimes with _ | m
  · rcases he : extract f with _ | doc
    · exact Or.inl (by simp [updateFileStep, hm, he])
    · exact Or.inr ⟨doc, rfl, by simp [updateFileStep, hm, he],
        by simp [updateFileStep, hm, he], Or.inl (by simp [updateFileStep, hm, he]),
        by simp only [updateFileStep, hm, he]; omega⟩
  · by_cases h0 : m = 0
    · subst h0
      rcases he : extract f with _ | doc
      · exact Or.inl (by simp [updateFileStep, hm, he])
      · exact Or.inr ⟨doc, rfl, by simp [updateFileStep, hm, he],
          by simp [updateFileStep, hm, he], Or.inl (by simp [updateFileStep, hm, he]),
          by simp only [updateFileStep, hm, he]; simp; omega⟩
    · by_cases hlt : m < f.mtime
      · rcases he : extract f with _ | doc
        · exact Or.inl (by simp [updateFileStep, hm, he, h0, hlt])
        · exact Or.inr ⟨doc, rfl, by simp [updateFileStep, hm, he, h0, hlt],
            by simp [updateFileStep, hm, he, h0, hlt],
            Or.inr (by simp [updateFileStep, hm, he, h0, hlt]),
            by simp only [updateFileStep, hm, he]; simp [h0, hlt]; omega⟩
      · exact Or.inl (by simp [updateFileStep, hm, h0, hlt])

/-! ## Claim C6: file count after an update -/

/-- The loaded-then-updated scenario of the C6 counterexample: a valid
snapshot of a one-file vault on disk, no in-memory state, and a second
file on disk. -/
def w6 : World :=
  { memory := []
    disk := some (.parsed
      { version := INDEX_VERSION, vaultPath := "/v".toList, lastBuilt := 0,
        fileCount := 1, fileMtimes := [("old.md".toList, 5)]
        indexData := msAdd msEmpty
          { id := "old.md".toList, title := "old.md".toList, content := [], tags := [],
            folder := [], modified := 5 } }) }

/-- C6 counterexample: `getSearchIndex` accepts the snapshot of `w6`
(one unchanged file `old.md`) and immediately runs an incremental
update that adds the new file `new.md`.  Because `loadIndexCache`
reconstructs the state with an empty documents map, the update stores
`fileCount = documents.size = 1` although the index store now holds 2
documents. -/
theorem c6_counterexample :
    (alookup "v".toList
        (getSearchIndex extractC 9 "/v".toList
          [FileInfo.mk "old.md".toList 5, FileInfo.mk "new.md".toList 7]
          "v".toList false w6).2.memory).map (fun st => st.cache.fileCount) = some 1
    ∧ (alookup "v".toList
        (getSearchIndex extractC 9 "/v".toList
          [FileInfo.mk "old.md".toList 5, FileInfo.mk "new.md".toList 7]
          "v".toList false w6).2.memory).map (fun st => st.index.docs.length) = some 2 := by
  decide

/-- Counting lemma for the add/modify loop: starting from an
accumulator none of whose document keys is a listed path, with distinct
listed paths and an id-preserving extraction, the documents map grows
by exactly the two counters. -/
theorem add_fold_count (extract : FileInfo → Option IndexedDocument)
    (files : List FileInfo) (acc : IndexState × Nat × Nat)
    (hext : ∀ f d, extract f = some d → d.id = f.path)
    (hdisj : ∀ f ∈ files, alookup f.path acc.1.documents = none)
    (hnodup : (files.map (fun f => f.path)).Nodup) :
    (files.foldl (updateFileStep extract) acc).1.documents.length +
        acc.2.1 + acc.2.2 =
      acc.1.documents.length + (files.foldl (updateFileStep extract) acc).2.1 +
        (files.foldl (updateFileStep extract) acc).2.2 := by
  induction files generalizing acc with
  | nil => simp only [List.foldl_nil]
  | cons f t ih =>
    simp only [List.foldl_cons]
    rcases updateFileStep_shape extract acc f with hsame | ⟨doc, hdoc, hdocs, _, _, hcnt⟩
    · rw [hsame]
      refine ih acc (fun g hg => hdisj g (by simp [hg])) ?_
      simpa using hnodup.of_cons
    · have hid : doc.id = f.path := hext f doc hdoc
      have hfresh : alookup f.path acc.1.documents = none := hdisj f (by simp)
      have hlen : (updateFileStep extract acc f).1.documents.length =
          acc.1.documents.length + 1 := by
        rw [hdocs, hid]
        exact length_aupsert_of_none _ _ _ hfresh
      have hdisj' : ∀ g ∈ t,
          alookup g.path (updateFileStep extract acc f).1.documents = none := by
        intro g hg
        rw [hdocs, hid]
        have hne : f.path ≠ g.path := by
          have hn := hnodup
          simp only [List.map_cons, List.nodup_cons] at hn
          intro hEq
          exact hn.1 (hEq ▸ List.mem_map_of_mem (fun x => x.path) hg)
        rw [alookup_aupsert_ne _ _ _ _ hne]
        exact hdisj g (by simp [hg])
      have := ih (updateFileStep extract acc f) hdisj' (by simpa using hnodup.of_cons)
      omega

theorem removal_go_documents (files : List FileInfo) (l : List (List Char))
    (acc : IndexState × Nat) (h : acc.1.documents = []) :
    (l.foldl
      (fun (acc : IndexState × Nat) id =>
        if id ∈ files.map (fun f => f.path) then acc
        else (removeId acc.1 id, acc.2 + 1)) acc).1.documents = [] := by
  induction l generalizing acc with
  | nil => exact h
  | cons i t ih =>
    simp only [List.foldl_cons]
    by_cases hi : i ∈ files.map (fun f => f.path)
    · rw [if_pos hi]
      exact ih acc h
    · rw [if_neg hi]
      exact ih _ (by simp [removeId, h, adelete])

theorem removalFold_documents (files : List FileInfo) (st : IndexState)
    (h : st.documents = []) : (removalFold files st).1.documents = [] :=
  removal_go_documents files _ (st, 0) h

theorem updateIndexAux_counters (extract : FileInfo → Option IndexedDocument)
    (now : Nat) (files : List FileInfo) (st : IndexState) :
    (updateIndexAux extract now files st).2 =
      ((files.foldl (updateFileStep extract) ((removalFold files st).1, 0, 0)).2.1,
       (files.foldl (updateFileStep extract) ((removalFold files st).1, 0, 0)).2.2,
       (removalFold files st).2) := by
  unfold updateIndexAux
  dsimp only
  split <;> rfl

theorem updateIndexAux_documents (extract : FileInfo → Option IndexedDocument)
    (now : Nat) (files : List FileInfo) (st : IndexState) :
    (updateIndexAux extract now files st).1.documents =
      (files.foldl (updateFileStep extract) ((removalFold files st).1, 0, 0)).1.documents := by
  unfold updateIndexAux
  dsimp only
  split <;> rfl

theorem updateIndexAux_fileCount (extract : FileInfo → Option IndexedDocument)
    (now : Nat) (files : List FileInfo) (st : IndexState)
    (hch : 0 < (updateIndexAux extract now files st).2.1
      ∨ 0 < (updateIndexAux extract now files st).2.2.1
      ∨ 0 < (updateIndexAux extract now files st).2.2.2) :
    (updateIndexAux extract now files st).1.cache.fileCount =
      (updateIndexAux extract now files st).1.documents.length := by
  by_cases h : 0 < (files.foldl (updateFileStep extract)
        ((removalFold files st).1, 0, 0)).2.1
      ∨ 0 < (files.foldl (updateFileStep extract) ((removalFold files st).1, 0, 0)).2.2
      ∨ 0 < (removalFold files st).2
  · unfold updateIndexAux
    dsimp only
    rw [if_pos h]
  · unfold updateIndexAux at hch
    dsimp only at hch
    rw [if_neg h] at hch
    exact absurd hch h

/-- C6 (amended): after an incremental update that added, modified or
removed at least one file, the stored `fileCount` equals the size of
the manager's in-memory documents map — not the document count of the
index store.  When the update ran against a freshly loaded state (whose
documents map is empty), that size is exactly the number of files added
plus the number modified during this update. -/
theorem c6_amended (extract : FileInfo → Option IndexedDocument) (now : Nat)
    (files : List FileInfo) (st : IndexState)
    (hchanged : 0 < (updateIndexAux extract now files st).2.1
      ∨ 0 < (updateIndexAux extract now files st).2.2.1
      ∨ 0 < (updateIndexAux extract now files st).2.2.2)
    (hloaded : st.documents = [])
    (hnodup : (files.map (fun f => f.path)).Nodup)
    (hext : ∀ f d, extract f = some d → d.id = f.path) :
    (updateIndex extract now files st).cache.fileCount =
        (updateIndex extract now files st).documents.length
    ∧ (updateIndex extract now files st).documents.length =
        (updateIndexAux extract now files st).2.1 +
          (updateIndexAux extract now files st).2.2.1 := by
  have hrem : (removalFold files st).1.documents = [] :=
    removalFold_documents files st hloaded
  have hcount := add_fold_count extract files ((removalFold files st).1, 0, 0) hext
    (by
      intro g hg
      show alookup g.path (removalFold files st).1.documents = none
      rw [hrem]
      rfl)
    hnodup
  have hdocs := updateIndexAux_documents extract now files st
  have hcnts := updateIndexAux_counters extract now files st
  have hfc := updateIndexAux_fileCount extract now files st hchanged
  constructor
  · unfold updateIndex
    exact hfc
  · unfold updateIndex
    rw [hdocs]
    have h1 : (updateIndexAux extract now files st).2.1 =
        (files.foldl (updateFileStep extract) ((removalFold files st).1, 0, 0)).2.1 := by
      rw [hcnts]
    have h2 : (updateIndexAux extract now files st).2.2.1 =
        (files.foldl (updateFileStep extract) ((removalFold files st).1, 0, 0)).2.2 := by
      rw [hcnts]
    have hcount2 : (files.foldl (updateFileStep extract)
          ((removalFold files st).1, 0, 0)).1.documents.length + 0 + 0 =
        (removalFold files st).1.documents.length +
          (files.foldl (updateFileStep extract) ((removalFold files st).1, 0, 0)).2.1 +
          (files.foldl (updateFileStep extract) ((removalFold files st).1, 0, 0)).2.2 :=
      hcount
    rw [hrem] at hcount2
    simp only [List.length_nil] at hcount2
    rw [h1, h2]
    omega

/-- The in-memory state right after accepting the snapshot of `w6`:
the documents map is empty, as `loadIndexCache` leaves it. -/
def stL : IndexState :=
  { index := msAdd msEmpty
      { id := "old.md".toList, title := "old.md".toList, content := [], tags := [],
        folder := [], modified := 5 }
    cache := { version := INDEX_VERSION, vaultPath := "/v".toList, lastBuilt := 0,
               fileCount := 1, fileMtimes := [("old.md".toList, 5)] }
    documents := [] }

/-- C6 witness: the amended theorem applied to the freshly loaded state
`stL` with one unchanged and one new file. -/
theorem c6_witness :
    (updateIndex extractC 9
        [FileInfo.mk "old.md".toList 5, FileInfo.mk "new.md".toList 7] stL).cache.fileCount =
      (updateIndex extractC 9
        [FileInfo.mk "old.md".toList 5, FileInfo.mk "new.md".toList 7] stL).documents.length
    ∧ (updateIndex extractC 9
        [FileInfo.mk "old.md".toList 5, FileInfo.mk "new.md".toList 7] stL).documents.length =
      (updateIndexAux extractC 9
        [FileInfo.mk "old.md".toList 5, FileInfo.mk "new.md".toList 7] stL).2.1 +
      (updateIndexAux extractC 9
        [FileInfo.mk "old.md".toList 5, FileInfo.mk "new.md".toList 7] stL).2.2.1 :=
  c6_amended extractC 9 [FileInfo.mk "old.md".toList 5, FileInfo.mk "new.md".toList 7]
    stL (Or.inl (by decide)) rfl (by decide) (fun f d h => by cases h; rfl)

/-! ## Claim C3: deletion correctness -/

/-- An id is fully absent from a state: not in the id-to-mtime map, not
in the documents map, and not among the index store's document keys. -/
def cleared (st : IndexState) (id : List Char) : Prop :=
  alookup id st.cache.fileMtimes = none
  ∧ alookup id st.documents = none
  ∧ id ∉ st.index.docs.map (fun e => e.1)

theorem keys_msAdd (idx : MSIndex) (doc : IndexedDocument) :
    (msAdd idx doc).docs.map (fun e => e.1) =
      idx.docs.map (fun e => e.1) ++ [doc.id] := by
  simp [msAdd]

theorem not_mem_keys_msDiscard_self (idx : MSIndex) (id : List Char) :
    id ∉ (msDiscard idx id).docs.map (fun e => e.1) := by
  intro h
  simp only [msDiscard, List.mem_map] at h
  rcases h with ⟨e, he, hEq⟩
  rw [List.mem_filter] at he
  have hne : e.1 ≠ id := by simpa using he.2
  exact hne hEq

theorem keys_msDiscard_subset (idx : MSIndex) (j id : List Char)
    (h : id ∈ (msDiscard idx j).docs.map (fun e => e.1)) :
    id ∈ idx.docs.map (fun e => e.1) := by
  simp only [msDiscard, List.mem_map] at h
  rcases h with ⟨e, he, hEq⟩
  rw [List.mem_filter] at he
  exact hEq ▸ List.mem_map_of_mem _ he.1

theorem cleared_removeId_self (st : IndexState) (id : List Char) :
    cleared (removeId st id) id :=
  ⟨alookup_adelete_self id st.cache.fileMtimes,
   alookup_adelete_self id st.documents,
   not_mem_keys_msDiscard_self st.index id⟩

theorem cleared_removeId (st : IndexState) (j id : List Char) (h : cleared st id) :
    cleared (removeId st j) id :=
  ⟨alookup_adelete_of_none id j _ h.1,
   alookup_adelete_of_none id j _ h.2.1,
   fun hmem => h.2.2 (keys_msDiscard_subset st.index j id hmem)⟩

theorem removal_go_cleared (files : List FileInfo) (l : List (List Char))
    (acc : IndexState × Nat) (id : List Char)
    (h : cleared acc.1 id ∨ id ∈ l) (hcur : id ∉ files.map (fun f => f.path)) :
    cleared (l.foldl
      (fun (acc : IndexState × Nat) i =>
        if i ∈ files.map (fun f => f.path) then acc
        else (removeId acc.1 i, acc.2 + 1)) acc).1 id := by
  induction l generalizing acc with
  | nil =>
    rcases h with h | h
    · exact h
    · exact absurd h (List.not_mem_nil id)
  | cons i t ih =>
    simp only [List.foldl_cons]
    rcases h with h | h
    · by_cases hi : i ∈ files.map (fun f => f.path)
      · rw [if_pos hi]
        exact ih acc (Or.inl h)
      · rw [if_neg hi]
        exact ih _ (Or.inl (cleared_removeId acc.1 i id h))
    · by_cases hii : i = id
      · subst hii
        rw [if_neg hcur]
        exact ih _ (Or.inl (cleared_removeId_self acc.1 i))
      · have ht : id ∈ t := by
          rcases List.mem_cons.mp h with hEq | ht
          · exact absurd hEq.symm hii
          · exact ht
        by_cases hi : i ∈ files.map (fun f => f.path)
        · rw [if_pos hi]
          exact ih acc (Or.inr ht)
        · rw [if_neg hi]
          exact ih _ (Or.inr ht)

theorem add_fold_cleared (extract : FileInfo → Option IndexedDocument)
    (files : List FileInfo) (acc : IndexState × Nat × Nat) (id : List Char)
    (hext : ∀ f d, extract f = some d → d.id = f.path)
    (hid : id ∉ files.map (fun f => f.path)) (h : cleared acc.1 id) :
    cleared (files.foldl (updateFileStep extract) acc).1 id := by
  induction files generalizing acc with
  | nil => exact h
  | cons f t ih =>
    simp only [List.foldl_cons]
    have hne : f.path ≠ id := by
      intro hEq
      exact hid (by simp [hEq])
    have hid' : id ∉ t.map (fun f => f.path) := by
      intro hmem
      exact hid (by simp [hmem])
    rcases updateFileStep_shape extract acc f with hsame | ⟨doc, hdoc, hdocs, hmt, hidx, _⟩
    · rw [hsame]
      exact ih acc hid' h
    · have hdocid : doc.id = f.path := hext f doc hdoc
      refine ih _ hid' ⟨?_, ?_, ?_⟩
      · rw [hmt, hdocid, alookup_aupsert_ne _ _ _ _ hne]
        exact h.1
      · rw [hdocs, hdocid, alookup_aupsert_ne _ _ _ _ hne]
        exact h.2.1
      · rcases hidx with hidx | hidx <;> rw [hidx, keys_msAdd] <;>
          intro hmem <;> rcases List.mem_append.mp hmem with hmem | hmem
        · exact h.2.2 hmem
        · have hid2 : id = doc.id := by simpa using hmem
          exact hne (hid2.trans hdocid).symm
        · exact h.2.2 (keys_msDiscard_subset _ _ _ hmem)
        · have hid2 : id = doc.id := by simpa using hmem
          exact hne (hid2.trans hdocid).symm

theorem msSearch_subset (idx : MSIndex) (q : List Char) (o : MSSearchOptions)
    (id : List Char) (h : id ∈ msSearch idx q o) :
    id ∈ idx.docs.map (fun e => e.1) := by
  simp only [msSearch, List.mem_map] at h
  rcases h with ⟨e, he, hEq⟩
  rw [List.mem_filter] at he
  exact hEq ▸ List.mem_map_of_mem _ he.1

theorem updateIndexAux_fileMtimes (extract : FileInfo → Option IndexedDocument)
    (now : Nat) (files : List FileInfo) (st : IndexState) :
    (updateIndexAux extract now files st).1.cache.fileMtimes =
      (files.foldl (updateFileStep extract)
        ((removalFold files st).1, 0, 0)).1.cache.fileMtimes := by
  unfold updateIndexAux
  dsimp only
  split <;> rfl

theorem updateIndexAux_index (extract : FileInfo → Option IndexedDocument)
    (now : Nat) (files : List FileInfo) (st : IndexState) :
    (updateIndexAux extract now files st).1.index =
      (files.foldl (updateFileStep extract) ((removalFold files st).1, 0, 0)).1.index := by
  unfold updateIndexAux
  dsimp only
  split <;> rfl

/-- C3: any previously recorded id (a key of the id-to-mtime map)
absent from the current listing is, after an incremental update, gone
from the id-to-mtime map, the documents map and the index store, and no
search over the updated index can return it.  The extraction function
is only assumed to give each document the id of its file, as
`buildDocument` does. -/
theorem c3_deletion (extract : FileInfo → Option IndexedDocument) (now : Nat)
    (files : List FileInfo) (st : IndexState) (id : List Char)
    (hext : ∀ f d, extract f = some d → d.id = f.path)
    (hid : id ∈ st.cache.fileMtimes.map (fun e => e.1))
    (habs : id ∉ files.map (fun f => f.path)) :
    alookup id (updateIndex extract now files st).cache.fileMtimes = none
    ∧ alookup id (updateIndex extract now files st).documents = none
    ∧ id ∉ (updateIndex extract now files st).index.docs.map (fun e => e.1)
    ∧ ∀ q o, id ∉ msSearch (updateIndex extract now files st).index q o := by
  have hrem : cleared (removalFold files st).1 id :=
    removal_go_cleared files _ (st, 0) id (Or.inr hid) habs
  have hupd : cleared
      (files.foldl (updateFileStep extract) ((removalFold files st).1, 0, 0)).1 id :=
    add_fold_cleared extract files _ id hext habs hrem
  have h1 := updateIndexAux_fileMtimes extract now files st
  have h2 := updateIndexAux_documents extract now files st
  have h3 := updateIndexAux_index extract now files st
  refine ⟨?_, ?_, ?_, ?_⟩
  · unfold updateIndex
    rw [h1]
    exact hupd.1
  · unfold updateIndex
    rw [h2]
    exact hupd.2.1
  · unfold updateIndex
    rw [h3]
    exact hupd.2.2
  · intro q o hq
    unfold updateIndex at hq
    rw [h3] at hq
    exact hupd.2.2 (msSearch_subset _ _ _ _ hq)

/-- C3 witness: the deletion theorem applied to `stY` (which records
`b.md`) against an empty current listing, with one concrete search. -/
theorem c3_witness :
    alookup "b.md".toList (updateIndex extractC 9 [] stY).cache.fileMtimes = none
    ∧ alookup "b.md".toList (updateIndex extractC 9 [] stY).documents = none
    ∧ "b.md".toList ∉ (updateIndex extractC 9 [] stY).index.docs.map (fun e => e.1)
    ∧ "b.md".toList ∉ msSearch (updateIndex extractC 9 [] stY).index "b".toList
        instanceSearchOptions :=
  ⟨(c3_deletion extractC 9 [] stY "b.md".toList (fun f d h => by cases h; rfl)
      (by decide) (by decide)).1,
   (c3_deletion extractC 9 [] stY "b.md".toList (fun f d h => by cases h; rfl)
      (by decide) (by decide)).2.1,
   (c3_deletion extractC 9 [] stY "b.md".toList (fun f d h => by cases h; rfl)
      (by decide) (by decide)).2.2.1,
   (c3_deletion extractC 9 [] stY "b.md".toList (fun f d h => by cases h; rfl)
      (by decide) (by decide)).2.2.2 "b".toList instanceSearchOptions⟩

/-! ## Claim C8: snippet extraction -/

/-- `idxOf` finds the first occurrence: the pattern is a prefix of the
suffix starting at the reported index and of no earlier suffix. -/
theorem idxOfAux_spec (pat : List Char) (hay : List Char) (n i : Nat)
    (h : idxOfAux pat hay n = some i) :
    n ≤ i ∧ pat.isPrefixOf (hay.drop (i - n))
      ∧ ∀ j, n ≤ j → j < i → pat.isPrefixOf (hay.drop (j - n)) = false := by
  induction hay generalizing n with
  | nil =>
    unfold idxOfAux at h
    split at h
    · cases h
      rename_i hpre
      refine ⟨Nat.le_refl i, by simpa using hpre, ?_⟩
      intro j hj1 hj2
      omega
    · cases h
  | cons c rest ih =>
    unfold idxOfAux at h
    split at h
    · cases h
      rename_i hpre
      refine ⟨Nat.le_refl i, by simpa using hpre, ?_⟩
      intro j hj1 hj2
      omega
    · rename_i hpre
      obtain ⟨h1, h2, h3⟩ := ih (n + 1) h
      refine ⟨by omega, ?_, ?_⟩
      · have hd : (c :: rest).drop (i - n) = rest.drop (i - (n + 1)) := by
          have : i - n = (i - (n + 1)) + 1 := by omega
          rw [this, List.drop_succ_cons]
        rw [hd]
        exact h2
      · intro j hj1 hj2
        by_cases hjn : j = n
        · subst hjn
          simpa using Bool.eq_false_iff.mpr hpre
        · have hd : (c :: rest).drop (j - n) = rest.drop (j - (n + 1)) := by
            have : j - n = (j - (n + 1)) + 1 := by omega
            rw [this, List.drop_succ_cons]
          rw [hd]
          exact h3 j (by omega) hj2

theorem idxOf_spec (hay pat : List Char) (i : Nat) (h : idxOf hay pat = some i) :
    pat.isPrefixOf (hay.drop i)
      ∧ ∀ j, j < i → pat.isPrefixOf (hay.drop j) = false := by
  obtain ⟨_, h2, h3⟩ := idxOfAux_spec pat hay 0 i h
  exact ⟨by simpa using h2, fun j hj => by simpa using h3 j (Nat.zero_le j) hj⟩

theorem bmiStep_shape (hay : List Char) (acc : Option Nat) (t : List Char) :
    (idxOf hay t = none ∧ bmiStep hay acc t = acc)
    ∨ ∃ i, idxOf hay t = some i ∧
        ((acc = none ∧ bmiStep hay acc t = some i)
         ∨ (∃ a, acc = some a ∧ i < a ∧ bmiStep hay acc t = some i)
         ∨ (∃ a, acc = some a ∧ ¬ i < a ∧ bmiStep hay acc t = some a)) := by
  unfold bmiStep
  rcases hi : idxOf hay t with _ | i <;> rcases acc with _ | a
  · exact Or.inl ⟨rfl, rfl⟩
  · exact Or.inl ⟨rfl, rfl⟩
  · exact Or.inr ⟨i, rfl, Or.inl ⟨rfl, rfl⟩⟩
  · by_cases hlt : i < a
    · exact Or.inr ⟨i, rfl, Or.inr (Or.inl ⟨a, rfl, hlt,
        show (if i < a then some i else some a) = some i from if_pos hlt⟩)⟩
    · exact Or.inr ⟨i, rfl, Or.inr (Or.inr ⟨a, rfl, hlt,
        show (if i < a then some i else some a) = some a from if_neg hlt⟩)⟩

theorem bmi_go_none (hay : List Char) (terms : List (List Char)) (acc : Option Nat) :
    terms.foldl (bmiStep hay) acc = none ↔
      acc = none ∧ ∀ t ∈ terms, idxOf hay t = none := by
  induction terms generalizing acc with
  | nil => simp
  | cons t ts ih =>
    simp only [List.foldl_cons]
    rw [ih]
    constructor
    · rintro ⟨h1, h3⟩
      rcases bmiStep_shape hay acc t with ⟨hnone, hstep⟩ | ⟨i, hi, hrest⟩
      · rw [hstep] at h1
        refine ⟨h1, fun t' ht' => ?_⟩
        rcases List.mem_cons.mp ht' with hEq | hmem
        · exact hEq ▸ hnone
        · exact h3 t' hmem
      · rcases hrest with ⟨_, hstep⟩ | ⟨a, _, _, hstep⟩ | ⟨a, _, _, hstep⟩ <;>
          exact absurd (hstep ▸ h1) (by simp)
    · rintro ⟨h1, h2⟩
      rcases bmiStep_shape hay acc t with ⟨hnone, hstep⟩ | ⟨i, hi, hrest⟩
      · exact ⟨hstep.trans h1, fun t' ht' => h2 t' (by simp [ht'])⟩
      · exact absurd hi (by simp [h2 t (by simp)])

theorem bmi_go_le (hay : List Char) (terms : List (List Char)) (acc : Option Nat)
    (b : Nat) (hfold : terms.foldl (bmiStep hay) acc = some b) :
    (∀ a, acc = some a → b ≤ a)
    ∧ (∀ t ∈ terms, ∀ j, idxOf hay t = some j → b ≤ j)
    ∧ (acc = some b ∨ ∃ t ∈ terms, idxOf hay t = some b) := by
  induction terms generalizing acc with
  | nil =>
    simp only [List.foldl_nil] at hfold
    refine ⟨fun a ha => ?_, by simp, Or.inl hfold⟩
    cases ha.symm.trans hfold
    exact Nat.le_refl b
  | cons t ts ih =>
    simp only [List.foldl_cons] at hfold
    obtain ⟨ih1, ih2, ih3⟩ := ih (bmiStep hay acc t) hfold
    rcases bmiStep_shape hay acc t with ⟨hnone, hstep⟩ |
        ⟨i, hi, ⟨hacc, hstep⟩ | ⟨a, hacc, hlt, hstep⟩ | ⟨a, hacc, hlt, hstep⟩⟩
    · refine ⟨fun a ha => ih1 a (hstep.trans ha), ?_, ?_⟩
      · intro t' ht' j hj
        rcases List.mem_cons.mp ht' with hEq | hmem
        · exact absurd (hEq ▸ hj) (by simp [hnone])
        · exact ih2 t' hmem j hj
      · rcases ih3 with h | ⟨t', ht', hj⟩
        · exact Or.inl (hstep ▸ h)
        · exact Or.inr ⟨t', by simp [ht'], hj⟩
    · have hbi : b ≤ i := ih1 i hstep
      refine ⟨fun a ha => absurd (ha.symm.trans hacc) (by simp), ?_, ?_⟩
      · intro t' ht' j hj
        rcases List.mem_cons.mp ht' with hEq | hmem
        · cases (hEq ▸ hj).symm.trans hi
          exact hbi
        · exact ih2 t' hmem j hj
      · rcases ih3 with h | ⟨t', ht', hj⟩
        · cases hstep.symm.trans h
          exact Or.inr ⟨t, by simp, hi⟩
        · exact Or.inr ⟨t', by simp [ht'], hj⟩
    · have hbi : b ≤ i := ih1 i hstep
      refine ⟨fun a' ha' => ?_, ?_, ?_⟩
      · cases ha'.symm.trans hacc
        omega
      · intro t' ht' j hj
        rcases List.mem_cons.mp ht' with hEq | hmem
        · cases (hEq ▸ hj).symm.trans hi
          exact hbi
        · exact ih2 t' hmem j hj
      · rcases ih3 with h | ⟨t', ht', hj⟩
        · cases hstep.symm.trans h
          exact Or.inr ⟨t, by simp, hi⟩
        · exact Or.inr ⟨t', by simp [ht'], hj⟩
    · have hba : b ≤ a := ih1 a hstep
      refine ⟨fun a' ha' => ?_, ?_, ?_⟩
      · cases ha'.symm.trans hacc
        exact hba
      · intro t' ht' j hj
        rcases List.mem_cons.mp ht' with hEq | hmem
        · cases (hEq ▸ hj).symm.trans hi
          omega
        · exact ih2 t' hmem j hj
      · rcases ih3 with h | ⟨t', ht', hj⟩
        · cases hstep.symm.trans h
          exact Or.inl hacc
        · exact Or.inr ⟨t', by simp [ht'], hj⟩

/-- C8 counterexample: the claim allows ellipsis markers only when the
snippet is truncated from a larger document, but in the no-match
fallback the source appends an ellipsis unconditionally: a 5-character
document with no front matter and no query-term occurrence yields
`hello...`. -/
theorem c8_counterexample :
    extractSnippet "hello".toList "xyz".toList = "hello...".toList
    ∧ ("hello".toList).length < 150 := by
  decide

/-- C8 (amended): the snippet locates the earliest occurrence of any
whitespace-separated lowercased query term in the lowercased content
(the reported index is an occurrence of some term and no term occurs
earlier); on a match it is the 50-before/100-after window with newlines
collapsed and trimmed, with a leading ellipsis exactly when the window
starts after position 0 and a trailing ellipsis exactly when it ends
before the end of the content; when no term occurs, it is the start of
the content with the front-matter block stripped, truncated to 150
characters, with an ellipsis always appended. -/
theorem c8_amended (content query : List Char) :
    (bestMatchIndex (lowerStr content) (splitRuns isJsWs (lowerStr query)) = none →
      (∀ t ∈ splitRuns isJsWs (lowerStr query), idxOf (lowerStr content) t = none)
      ∧ extractSnippet content query =
          jsTrim (collapseNewlines ((stripFrontmatterSnippet content).take 150)) ++
            "...".toList)
    ∧ (∀ b, bestMatchIndex (lowerStr content) (splitRuns isJsWs (lowerStr query)) = some b →
      (∃ t ∈ splitRuns isJsWs (lowerStr query), idxOf (lowerStr content) t = some b)
      ∧ (∀ t ∈ splitRuns isJsWs (lowerStr query), ∀ j,
          idxOf (lowerStr content) t = some j → b ≤ j)
      ∧ extractSnippet content query =
          (if 0 < b - 50 then "...".toList else []) ++
            jsTrim (collapseNewlines (jsSlice content (b - 50)
              (min content.length (b + 100)))) ++
            (if min content.length (b + 100) < content.length then "...".toList else [])) := by
  constructor
  · intro hb
    constructor
    · exact ((bmi_go_none (lowerStr content) (splitRuns isJsWs (lowerStr query)) none).mp
        hb).2
    · unfold extractSnippet
      dsimp only
      rw [hb]
  · intro b hb
    obtain ⟨h1, h2, h3⟩ :=
      bmi_go_le (lowerStr content) (splitRuns isJsWs (lowerStr query)) none b hb
    refine ⟨?_, h2, ?_⟩
    · rcases h3 with h | h
      · exact absurd h (by simp)
      · exact h
    · unfold extractSnippet
      dsimp only
      rw [hb]

/-- C8 witness: the amended theorem applied to the concrete document
`say hello world` and query `hello` (match at index 4, window untrimmed
on both sides), and to `hello` with the non-occurring query `xyz`. -/
theorem c8_witness :
    (∃ t ∈ splitRuns isJsWs (lowerStr "hello".toList),
        idxOf (lowerStr "say hello world".toList) t = some 4)
    ∧ extractSnippet "say hello world".toList "hello".toList =
        (if 0 < 4 - 50 then "...".toList else []) ++
          jsTrim (collapseNewlines (jsSlice "say hello world".toList (4 - 50)
            (min ("say hello world".toList).length (4 + 100)))) ++
          (if min ("say hello world".toList).length (4 + 100) <
              ("say hello world".toList).length then "...".toList else [])
    ∧ extractSnippet "hello".toList "xyz".toList =
        jsTrim (collapseNewlines ((stripFrontmatterSnippet "hello".toList).take 150)) ++
          "...".toList :=
  ⟨((c8_amended "say hello world".toList "hello".toList).2 4 (by decide)).1,
   ((c8_amended "say hello world".toList "hello".toList).2 4 (by decide)).2.2,
   ((c8_amended "hello".toList "xyz".toList).1 (by decide)).2⟩

/-! ## Claim C9: tokenizer CJK handling -/

/-- C9 counterexample: the claim covers both CJK ranges, but the
compound-token regex and the Latin-split exclusion regex only cover the
main range U+4E00 to U+9FA5.  The extension-A characters U+3400 and
U+3401 form a maximal CJK run of length 2 in `x㐀㐁` (the `x` before it
is not CJK), yet no compound token `㐀㐁` is emitted for it; and the
same purely-CJK candidate `㐀㐁` is kept among the Latin-split tokens
of `㐀㐁 y`. -/
theorem c9_counterexample :
    isCJK 'x' = false
    ∧ ("㐀㐁".toList).all isCJK = true
    ∧ ("㐀㐁".toList).length = 2
    ∧ "x㐀㐁".toList = ['x'] ++ "㐀㐁".toList ++ []
    ∧ "㐀㐁".toList ∉ tokenize "x㐀㐁".toList
    ∧ "㐀㐁".toList ∈ englishTokens "㐀㐁 y".toList := by
  decide

theorem chunkRun_eq_self : ∀ l : List Char, 2 ≤ l.length → l.length ≤ 4 →
    chunkRun l = [l]
  | [_, _], _, _ => rfl
  | [_, _, _], _, _ => rfl
  | [_, _, _, _], _, _ => rfl
  | [], h, _ => by simp at h
  | [_], h, _ => by simp at h
  | _ :: _ :: _ :: _ :: _ :: _, _, h => by simp at h

theorem cjkGroupsGo_append_run (run : List Char) (rest acc : List Char)
    (hrun : run.all isCJKmain = true) :
    cjkGroupsGo (run ++ rest) acc = cjkGroupsGo rest (run.reverse ++ acc) := by
  induction run generalizing acc with
  | nil => simp
  | cons c t ih =>
    simp only [List.all_cons, Bool.and_eq_true] at hrun
    have hstep : cjkGroupsGo ((c :: t) ++ rest) acc = cjkGroupsGo (t ++ rest) (c :: acc) := by
      simp [cjkGroupsGo, hrun.1]
    rw [hstep, ih (c :: acc) hrun.2, List.reverse_cons, List.append_assoc]
    rfl

theorem cjkGroups_run_mem (run post : List Char) (hrun : run.all isCJKmain = true)
    (h2 : 2 ≤ run.length) (h4 : run.length ≤ 4)
    (hpost : ∀ c, post.head? = some c → isCJKmain c = false) :
    run ∈ cjkGroupsGo (run ++ post) [] := by
  rw [cjkGroupsGo_append_run run post [] hrun]
  cases post with
  | nil =>
    simp only [cjkGroupsGo]
    rw [List.append_nil, List.reverse_reverse, chunkRun_eq_self run h2 h4]
    simp
  | cons c t =>
    have hc : isCJKmain c = false := hpost c rfl
    simp only [cjkGroupsGo]
    rw [if_neg (by simp [hc]), List.append_nil, List.reverse_reverse,
      chunkRun_eq_self run h2 h4]
    simp

theorem cjkGroupsGo_prefix_skip (pre : List Char) (s : List Char)
    (hne : pre ≠ []) (hlast : ∀ c, pre.getLast? = some c → isCJKmain c = false) :
    ∀ acc, ∃ X, cjkGroupsGo (pre ++ s) acc = X ++ cjkGroupsGo s [] := by
  induction pre with
  | nil => exact absurd rfl hne
  | cons c t ih =>
    intro acc
    cases t with
    | nil =>
      have hc : isCJKmain c = false := hlast c rfl
      refine ⟨chunkRun acc.reverse, ?_⟩
      simp [cjkGroupsGo, hc]
    | cons c2 t2 =>
      have hlast' : ∀ x, (c2 :: t2).getLast? = some x → isCJKmain x = false := by
        intro x hx
        apply hlast x
        rw [List.getLast?_cons_cons]
        exact hx
      by_cases hc : isCJKmain c
      · have hstep : cjkGroupsGo ((c :: (c2 :: t2)) ++ s) acc =
            cjkGroupsGo ((c2 :: t2) ++ s) (c :: acc) := by
          simp [cjkGroupsGo, hc]
        rw [hstep]
        exact ih (by simp) hlast' (c :: acc)
      · have hstep : cjkGroupsGo ((c :: (c2 :: t2)) ++ s) acc =
            chunkRun acc.reverse ++ cjkGroupsGo ((c2 :: t2) ++ s) [] := by
          simp [cjkGroupsGo, hc]
        obtain ⟨X, hX⟩ := ih (by simp) hlast' []
        exact ⟨chunkRun acc.reverse ++ X, by rw [hstep, hX, List.append_assoc]⟩

/-- C9 (amended): every CJK character of the input — in either of the
two ranges — is emitted as its own single-character token; every
maximal run of 2 to 4 consecutive characters of the main range
U+4E00 to U+9FA5 is emitted as a compound token (extension-A runs are
not); and the Latin-split tokens are nonempty and never consist purely
of main-range CJK characters (purely extension-A candidates are
kept). -/
theorem c9_amended :
    (∀ (text : List Char) (c : Char), c ∈ text → isCJK c = true → [c] ∈ tokenize text)
    ∧ (∀ pre run post : List Char, run.all isCJKmain = true →
        2 ≤ run.length → run.length ≤ 4 →
        (∀ c, pre.getLast? = some c → isCJKmain c = false) →
        (∀ c, post.head? = some c → isCJKmain c = false) →
        run ∈ tokenize (pre ++ run ++ post))
    ∧ (∀ text t : List Char, t ∈ englishTokens text →
        0 < t.length ∧ ¬ t.all isCJKmain = true) := by
  refine ⟨?_, ?_, ?_⟩
  · intro text c hc hcjk
    unfold tokenize
    rw [List.mem_filter]
    refine ⟨List.mem_append.mpr (Or.inl (List.mem_append.mpr (Or.inr ?_))), by simp⟩
    exact List.mem_map_of_mem _ (List.mem_filter.mpr ⟨hc, hcjk⟩)
  · intro pre run post hall h2 h4 hpre hpost
    have hgroups : run ∈ cjkGroups (pre ++ run ++ post) := by
      unfold cjkGroups
      by_cases hp : pre = []
      · subst hp
        simp only [List.nil_append]
        exact cjkGroups_run_mem run post hall h2 h4 hpost
      · obtain ⟨X, hX⟩ := cjkGroupsGo_prefix_skip pre (run ++ post) hp hpre []
        rw [List.append_assoc, hX]
        exact List.mem_append_right X (cjkGroups_run_mem run post hall h2 h4 hpost)
    unfold tokenize
    rw [List.mem_filter]
    refine ⟨List.mem_append.mpr (Or.inr hgroups), ?_⟩
    simp only [decide_eq_true_eq]
    omega
  · intro text t ht
    unfold englishTokens at ht
    rw [List.mem_filter] at ht
    have hconj := ht.2
    rw [Bool.and_eq_true] at hconj
    rcases hconj with ⟨hlen, hneg⟩
    have hlen' : 0 < t.length := by simpa using hlen
    refine ⟨hlen', ?_⟩
    intro hall
    have hne : t ≠ [] := by
      intro hnil
      rw [hnil] at hlen'
      simp at hlen'
    have htrue : (decide (t ≠ []) && t.all isCJKmain) = true := by
      rw [Bool.and_eq_true]
      exact ⟨by simpa using hne, hall⟩
    rw [htrue] at hneg
    simp at hneg

/-- C9 witness: the amended theorem applied at concrete inputs — the
single character `好` in `x好`, the main-range run `中文` between a
Latin character boundary and `x`, and the Latin token `hello`. -/
theorem c9_witness :
    ['好'] ∈ tokenize "x好".toList
    ∧ "中文".toList ∈ tokenize (([] : List Char) ++ "中文".toList ++ "x".toList)
    ∧ (0 < ("hello".toList).length ∧ ¬ ("hello".toList).all isCJKmain = true) :=
  ⟨c9_amended.1 "x好".toList '好' (by decide) (by decide),
   c9_amended.2.1 [] "中文".toList "x".toList (by decide) (by decide) (by decide)
     (fun _ hc => nomatch hc)
     (fun c hc => by
       have h2 : some 'x' = some c := hc
       cases h2
       decide),
   c9_amended.2.2 "hello world".toList "hello".toList (by decide)⟩

end TT
